import Mathlib

/-!
Verification of the SleepScoring signal pipeline.

This file gives a shallow embedding, over exact arithmetic, of the core of the
repository (utils.py and sleep_features_v2.py): the bipolar montage builder,
the multirate sample-rate converter, the wavelet-leader multifractal feature
extractor, the orchestrator bookkeeping, and the per-column feature
post-processing.  Machine floating point is idealised as the rationals where
the code uses only field operations and comparisons, and as the reals where
logarithms and square roots appear.  Fallible operations (the unsupported-rate
branch, out-of-bounds array indexing) are embedded with Option.
-/

namespace SleepScoring

/-! ## Generic array helpers -/

/-- Every k-th element of a list starting from the head: the NumPy slice
x[::k]. -/
def downsample {α : Type} (k : ℕ) : List α → List α
  | [] => []
  | a :: t => a :: downsample k (t.drop (k - 1))
termination_by l => l.length
decreasing_by simp [List.length_drop]; omega

/-- Causal FIR filtering, scipy.signal.lfilter with denominator 1:
y[n] = sum over k of b[k] * x[n-k]. -/
def lfilter {α : Type} [CommRing α] (b x : List α) : List α :=
  (List.range x.length).map (fun n =>
    ((List.range b.length).map (fun k =>
      if k ≤ n then b.getD k 0 * x.getD (n - k) 0 else 0)).sum)

/-- The Python slice l[a : -1-b] (stop index counted from the end, with
the usual clamping). -/
def slicePy {α : Type} (a b : ℕ) (l : List α) : List α :=
  (l.drop a).take (l.length - (1 + b) - a)

/-- Arithmetic mean of a list, np.mean (division by zero gives 0 on the
empty list). -/
def lmean {α : Type} [DivisionRing α] (l : List α) : α :=
  l.sum / (l.length : α)

/-- Stable insertion of an element into a list: the element is placed after
every existing element le-below-or-equal to it. -/
def insOrd {α : Type} (le : α → α → Bool) (a : α) : List α → List α
  | [] => [a]
  | b :: t => if le b a then b :: insOrd le a t else a :: b :: t

/-- Stable sort by a boolean comparison (the semantics of Python list.sort
and np.sort for a total order). -/
def stableSort {α : Type} (le : α → α → Bool) (l : List α) : List α :=
  l.foldl (fun acc a => insOrd le a acc) []

theorem lfilter_length {α : Type} [CommRing α] (b x : List α) :
    (lfilter b x).length = x.length := by
  simp [lfilter]

theorem downsample_two_length {α : Type} :
    ∀ l : List α, (downsample 2 l).length = (l.length + 1) / 2
  | [] => by simp [downsample]
  | a :: t => by
    have ih := downsample_two_length (t.drop 1)
    simp only [downsample, List.length_cons, ih, List.length_drop]
    omega
termination_by l => l.length
decreasing_by simp [List.length_drop]; omega

theorem downsample_five_length {α : Type} :
    ∀ l : List α, (downsample 5 l).length = (l.length + 4) / 5
  | [] => by simp [downsample]
  | a :: t => by
    have ih := downsample_five_length (t.drop 4)
    simp only [downsample, List.length_cons, ih, List.length_drop]
    omega
termination_by l => l.length
decreasing_by simp [List.length_drop]; omega

/-! ## Rate converter (utils.change_sampling_rate)

The signal block is a matrix [samples x channels]; every operation of the
converter acts along the sample axis, channel by channel, so the matrix is
embedded as a list of channel columns.  The 55-tap half-band filter hd5 is
the exact rational value of each decimal literal of the source. -/

def hd5 : List ℚ :=
  [-0.000413312132792,   0.000384910656353,   0.000895384486596,   0.001426584098180,
    0.001572675788393,   0.000956099017099,  -0.000559378457343,  -0.002678217568221,
   -0.004629975982837,  -0.005358589238386,  -0.003933117464092,  -0.000059710059922,
    0.005521319363883,   0.010983495478404,   0.013840996082966,   0.011817315106321,
    0.003905283425021,  -0.008768844009700,  -0.022682212400564,  -0.032498023687148,
   -0.032456772047175,  -0.018225658085891,   0.011386634156651,   0.053456542440034,
    0.101168250947271,   0.145263694388270,   0.176384224234024,   0.187607302744229,
    0.176384224234024,   0.145263694388270,   0.101168250947271,   0.053456542440034,
    0.011386634156651,  -0.018225658085891,  -0.032456772047175,  -0.032498023687148,
   -0.022682212400564,  -0.008768844009700,   0.003905283425021,   0.011817315106321,
    0.013840996082966,   0.010983495478404,   0.005521319363883,  -0.000059710059922,
   -0.003933117464092,  -0.005358589238386,  -0.004629975982837,  -0.002678217568221,
   -0.000559378457343,   0.000956099017099,   0.001572675788393,   0.001426584098180,
    0.000895384486596,   0.000384910656353,  -0.000413312132792]

/-- One filter-and-decimate stage of the cascade: pad with od5//2 = 27
zeros, filter with hd5, discard the 27 lead samples, keep every 5th. -/
def firStage (c : List ℚ) : List ℚ :=
  downsample 5 ((lfilter hd5 (c ++ List.replicate 27 (0 : ℚ))).drop 27)

/-- Zero-stuffing by 4: the stack-and-reshape idiom of the source places
each sample followed by three zeros. -/
def upstuff : List ℚ → List ℚ
  | [] => []
  | v :: t => v :: 0 :: 0 :: 0 :: upstuff t

/-- The fs = 2000 branch: three filter-decimate-by-5 stages with amplitude-4
zero-stuffing interpolation before the second and third. -/
def stage2000 (c : List ℚ) : List ℚ :=
  firStage ((upstuff (firStage ((upstuff (firStage c)).map (fun v => 4 * v)))).map
    (fun v => 4 * v))

/-- The fs = 5000 branch: four filter-decimate-by-5 stages, with zero-stuffing
interpolation before stages two (amplitude 2), three and four (amplitude 4). -/
def stage5000 (c : List ℚ) : List ℚ :=
  firStage ((upstuff (firStage ((upstuff (firStage ((upstuff (firStage c)).map
    (fun v => 2 * v)))).map (fun v => 4 * v)))).map (fun v => 4 * v))

/-- utils.change_sampling_rate: dispatch on the source rate; any rate outside
the supported set raises ValueError, embedded as none. -/
def changeSamplingRate (fs : ℕ) (cols : List (List ℚ)) : Option (List (List ℚ)) :=
  if fs = 2000 then some (cols.map stage2000)
  else if fs = 5000 then some (cols.map stage5000)
  else none

theorem upstuff_length : ∀ l : List ℚ, (upstuff l).length = 4 * l.length
  | [] => rfl
  | v :: t => by simp [upstuff, upstuff_length t]; ring

theorem firStage_length (c : List ℚ) : (firStage c).length = (c.length + 4) / 5 := by
  simp [firStage, downsample_five_length, lfilter_length]

/-- C2: the claim states that for both supported rates the output length is
the input length scaled by 256/fs.  The fs = 2000 branch does land on the
canonical 256 samples per second, but the fs = 5000 cascade compounds to
64/625, i.e. 512 samples per second: a one-second block of 5000 samples
comes out as 512 samples, not 256, contradicting the docstring of
change_sampling_rate. -/
theorem changeSamplingRate_length_eval :
    (changeSamplingRate 5000 [List.replicate 5000 (0 : ℚ)]).map
        (fun m => m.map List.length) = some [512] ∧
    (changeSamplingRate 2000 [List.replicate 2000 (0 : ℚ)]).map
        (fun m => m.map List.length) = some [256] := by
  constructor
  · have h : (stage5000 (List.replicate 5000 (0 : ℚ))).length = 512 := by
      rw [stage5000, firStage_length, List.length_map, upstuff_length,
        firStage_length, List.length_map, upstuff_length,
        firStage_length, List.length_map, upstuff_length,
        firStage_length, List.length_replicate]
    show some [(stage5000 (List.replicate 5000 (0 : ℚ))).length] = some [512]
    rw [h]
  · have h : (stage2000 (List.replicate 2000 (0 : ℚ))).length = 256 := by
      rw [stage2000, firStage_length, List.length_map, upstuff_length,
        firStage_length, List.length_map, upstuff_length,
        firStage_length, List.length_replicate]
    show some [(stage2000 (List.replicate 2000 (0 : ℚ))).length] = some [256]
    rw [h]

/-- C7: a source rate outside the supported set {2000, 5000} makes the
converter fail immediately (ValueError, embedded as none) before any output
is produced, and both supported rates produce an output with no error. -/
theorem changeSamplingRate_unsupported (fs : ℕ) (cols : List (List ℚ)) :
    (fs ≠ 2000 → fs ≠ 5000 → changeSamplingRate fs cols = none) ∧
    ((fs = 2000 ∨ fs = 5000) → ∃ y, changeSamplingRate fs cols = some y) := by
  constructor
  · intro h1 h2
    simp [changeSamplingRate, h1, h2]
  · rintro (rfl | rfl)
    · exact ⟨cols.map stage2000, by simp [changeSamplingRate]⟩
    · exact ⟨cols.map stage5000, by simp [changeSamplingRate]⟩

/-- C7 witness: the converter rejects the rate 777 and accepts the rate 2000
on a concrete block. -/
theorem changeSamplingRate_unsupported_witness :
    changeSamplingRate 777 [[1]] = none ∧
    ∃ y, changeSamplingRate 2000 [[1]] = some y :=
  ⟨(changeSamplingRate_unsupported 777 [[1]]).1 (by decide) (by decide),
   (changeSamplingRate_unsupported 2000 [[1]]).2 (Or.inl rfl)⟩

/-! ## Multifractal feature extractor (utils.compute_features)

A single-channel segment is a list of reals.  The extractor is embedded scale
by scale: mfStep performs one octave of the wavelet-leader decomposition and
returns the three scale summaries, the three log-cumulants and the surviving
leader count, together with the next approximation signal and the propagated
inter-scale maximum. -/

/-- Standard deviation of a list, np.std with ddof 0. -/
noncomputable def rstd (l : List ℝ) : ℝ :=
  Real.sqrt (lmean (l.map (fun v => (v - lmean l) ^ 2)))

/-- The 10-tap low-pass coefficient set lx of compute_features. -/
noncomputable def lxCoef : List ℝ :=
  [0.22641898, 0.85394354, 1.02432694, 0.19576696, -0.34265671, -0.04560113,
   0.10970265, -0.0088268, -0.01779187, 0.00471742793]

/-- The high-pass counterpart h = flipud(lx) * (-1)^arange(10). -/
noncomputable def hpCoef : List ℝ :=
  List.zipWith (fun v k => v * (-1 : ℝ) ^ k) lxCoef.reverse (List.range 10)

/-- ceil(256 / 2^(jj+1)) as used by the boundary trim of scale jj. -/
def ceilScale (jj : ℕ) : ℕ := (256 + 2 ^ (jj + 1) - 1) / 2 ^ (jj + 1)

/-- Number of leader samples discarded at the start of scale jj:
nd - 1 + ceil(256 / 2^(jj+1)). -/
def trimLo (jj : ℕ) : ℕ := 4 + ceilScale jj

/-- Number of extra leader samples discarded before the final one at scale
jj: max(ceil(256 / 2^(jj+1)) - nd - 1, 0), with truncated subtraction. -/
def trimHi (jj : ℕ) : ℕ := ceilScale jj - 6

/-- One octave scale of compute_features: detail filtering and decimation,
scale summaries of the trimmed absolute details, the wavelet-leader
three-sample and inter-scale maxima, and the log-cumulants of the trimmed
leaders.  Returns ((mwc triple, cumulant triple, surviving count),
(next approximation, next inter-scale maximum)). -/
noncomputable def mfStep (jj : ℕ) (x laa : List ℝ) :
    ((ℝ × ℝ × ℝ) × (ℝ × ℝ × ℝ) × ℝ) × (List ℝ × List ℝ) :=
  let lea := downsample 2 (lfilter hpCoef x)
  let x2 := downsample 2 (lfilter lxCoef x)
  let mm := (slicePy (trimLo jj) (trimHi jj) lea).map (fun v => |v|)
  let mwcT : ℝ × ℝ × ℝ :=
    (Real.log (lmean mm), (mm.map (fun v => v ^ 2)).sum, Real.log (rstd mm))
  let leaAbs := ((0 : ℝ) :: (lea ++ [0])).map (fun v => |v|)
  let lea3 := List.zipWith max (List.zipWith max leaAbs (leaAbs.drop 1)) (leaAbs.drop 2)
  let lea4 := List.zipWith max lea3 laa
  let laa2 := List.zipWith max (downsample 2 lea4) (downsample 2 (lea4.drop 1))
  let lea5 := slicePy (trimLo jj) (trimHi jj) lea4
  let le := lea5.map Real.log
  let u1 := lmean le
  let u2 := lmean (le.map (fun v => v ^ 2))
  let u3 := lmean (le.map (fun v => v ^ 3))
  let cT : ℝ × ℝ × ℝ := (u1, u2 - u1 ^ 2, u3 - 3 * u1 * u2 + 2 * u1 ^ 3)
  ((mwcT, cT, (lea5.length : ℝ)), (x2, laa2))

/-- The loop over the eight octave scales, threading the approximation
signal and the inter-scale maximum. -/
noncomputable def mfLoop : ℕ → ℕ → List ℝ → List ℝ →
    List ((ℝ × ℝ × ℝ) × (ℝ × ℝ × ℝ) × ℝ)
  | 0, _, _, _ => []
  | n + 1, jj, x, laa =>
    (mfStep jj x laa).1 :: mfLoop n (jj + 1) (mfStep jj x laa).2.1 (mfStep jj x laa).2.2

/-- Input truncation to a multiple of 2^8 samples, and the eight per-scale
records of compute_features for a given segment. -/
noncomputable def mfScalesOf (x : List ℝ) : List ((ℝ × ℝ × ℝ) × (ℝ × ℝ × ℝ) × ℝ) :=
  let xt := x.take (256 * (x.length / 256))
  mfLoop 8 0 xt (List.replicate (xt.length / 2) (0 : ℝ))

/-- The per-scale log-cumulant triples of a segment. -/
noncomputable def mfCumulants (x : List ℝ) : List (ℝ × ℝ × ℝ) :=
  (mfScalesOf x).map (fun e => e.2.1)

/-- The per-scale surviving leader counts of a segment, as reals. -/
noncomputable def mfCounts (x : List ℝ) : List ℝ :=
  (mfScalesOf x).map (fun e => e.2.2)

/-- The central scale band of the regression: the scale indices 2..6 used
as abscissas (sc + 1 for sc = arange(1, 6)). -/
noncomputable def bandAbscissa : List ℝ := [2, 3, 4, 5, 6]

/-- The cumulant triples restricted to the central band c[:, 1..5]. -/
noncomputable def bandCumulants (x : List ℝ) : List (ℝ × ℝ × ℝ) :=
  ((mfCumulants x).drop 1).take 5

/-- The surviving counts restricted to the central band b[1..5]. -/
noncomputable def bandCounts (x : List ℝ) : List ℝ :=
  ((mfCounts x).drop 1).take 5

/-- v0 = sum of the band weights. -/
noncomputable def mfV0 (x : List ℝ) : ℝ := (bandCounts x).sum

/-- v1 = dot(sc + 1, b). -/
noncomputable def mfV1 (x : List ℝ) : ℝ :=
  (List.zipWith (fun a b => a * b) bandAbscissa (bandCounts x)).sum

/-- v2 = dot((sc + 1)^2, b). -/
noncomputable def mfV2 (x : List ℝ) : ℝ :=
  (List.zipWith (fun a b => a ^ 2 * b) bandAbscissa (bandCounts x)).sum

/-- The closed-form regression weight vector
w = b * (v0 * (sc + 1) - v1) / (v0 * v2 - v1^2). -/
noncomputable def mfW (x : List ℝ) : List ℝ :=
  List.zipWith (fun b a => b * ((mfV0 x * a - mfV1 x) / (mfV0 x * mfV2 x - mfV1 x ^ 2)))
    (bandCounts x) bandAbscissa

/-- log2(e), the scaling constant of the three regression features. -/
noncomputable def log2e : ℝ := Real.logb 2 (Real.exp 1)

/-- f = sum(log2(e) * w * c, axis=1): the three regression features. -/
noncomputable def slopeFeats (x : List ℝ) : List ℝ :=
  [(List.zipWith (fun w c => log2e * w * c.1) (mfW x) (bandCumulants x)).sum,
   (List.zipWith (fun w c => log2e * w * c.2.1) (mfW x) (bandCumulants x)).sum,
   (List.zipWith (fun w c => log2e * w * c.2.2) (mfW x) (bandCumulants x)).sum]

/-- mwc flattened: the eight log-mean entries, then the eight
sum-of-squares entries, then the eight log-std entries. -/
noncomputable def mwcFlat (x : List ℝ) : List ℝ :=
  (mfScalesOf x).map (fun e => e.1.1) ++ (mfScalesOf x).map (fun e => e.1.2.1) ++
    (mfScalesOf x).map (fun e => e.1.2.2)

/-- utils.compute_features: the three regression features concatenated with
the 24 scale summaries, with the entries of indices 4, 12 and 20 removed
(np.delete removes all three positions of the original indexing, so the
erasures run back to front). -/
noncomputable def computeFeatures (x : List ℝ) : List ℝ :=
  (((slopeFeats x ++ mwcFlat x).eraseIdx 20).eraseIdx 12).eraseIdx 4

theorem mfLoop_length (n : ℕ) : ∀ (jj : ℕ) (x laa : List ℝ),
    (mfLoop n jj x laa).length = n := by
  induction n with
  | zero => intro jj x laa; simp [mfLoop]
  | succ m ih => intro jj x laa; simp [mfLoop, ih]

theorem mfScalesOf_length (x : List ℝ) : (mfScalesOf x).length = 8 := by
  rw [mfScalesOf]
  exact mfLoop_length 8 0 _ _

theorem computeFeatures_length (x : List ℝ) : (computeFeatures x).length = 24 := by
  have hm : (mwcFlat x).length = 24 := by
    simp [mwcFlat, mfScalesOf_length]
  have hs : (slopeFeats x ++ mwcFlat x).length = 27 := by
    simp [slopeFeats, hm]
  rw [computeFeatures]
  rw [List.length_eraseIdx, List.length_eraseIdx, List.length_eraseIdx, hs]
  norm_num

/-- C1 counterexample: on the canonical 8192-sample input the feature vector
has 24 entries, not 21. -/
theorem computeFeatures_not_21 :
    ¬ (computeFeatures (List.replicate 8192 (0 : ℝ))).length = 21 := by
  rw [computeFeatures_length]
  norm_num

/-- C1 (amended): for every valid fixed-length input of 8192 samples,
compute_features returns a feature vector of exactly 24 elements: a
27-raw-value vector (3 regression scalars and 24 scale summaries) reduced to
24 by removing the three indices tied to the one excluded frequency band. -/
theorem computeFeatures_length_24 (x : List ℝ) (h : x.length = 8192) :
    (computeFeatures x).length = 24 :=
  computeFeatures_length x

/-- C1 witness: the amended length theorem at the all-zero 8192-sample
segment. -/
theorem computeFeatures_length_24_witness :
    (List.replicate 8192 (0 : ℝ)).length = 8192 ∧
    (computeFeatures (List.replicate 8192 (0 : ℝ))).length = 24 :=
  ⟨List.length_replicate 8192 0,
   computeFeatures_length_24 (List.replicate 8192 (0 : ℝ)) (List.length_replicate 8192 0)⟩

/-! ## The weighted-least-squares reading of the regression features -/

/-- Modelled from the spec: the closed-form weighted-least-squares slope of
values ys against abscissas xs with weights ws,
(W * Sxy - Sx * Sy) / (W * Sxx - Sx^2) for the weighted sums W = sum w,
Sx = sum x*w, Sy = sum y*w, Sxx = sum x^2*w, Sxy = sum x*y*w. -/
noncomputable def wlsSlope (xs ys ws : List ℝ) : ℝ :=
  (ws.sum * (List.zipWith3 (fun x y w => x * y * w) xs ys ws).sum
      - (List.zipWith (fun x w => x * w) xs ws).sum
        * (List.zipWith (fun y w => y * w) ys ws).sum)
    / (ws.sum * (List.zipWith (fun x w => x ^ 2 * w) xs ws).sum
      - ((List.zipWith (fun x w => x * w) xs ws).sum) ^ 2)

theorem take_five_of_seven {α : Type} (a b c d e f g : α) :
    List.take 5 [a, b, c, d, e, f, g] = [a, b, c, d, e] := rfl

theorem exists_eight {α : Type} (l : List α) (hl : l.length = 8) :
    ∃ a0 a1 a2 a3 a4 a5 a6 a7, l = [a0, a1, a2, a3, a4, a5, a6, a7] := by
  rcases l with _ | ⟨a0, _ | ⟨a1, _ | ⟨a2, _ | ⟨a3, _ | ⟨a4, _ | ⟨a5, _ | ⟨a6, _ | ⟨a7, t⟩⟩⟩⟩⟩⟩⟩⟩ <;>
    simp_all

/-- C8: the three leading outputs of compute_features are exactly the
closed-form weighted-least-squares slopes, scaled by log2(e), of each
log-cumulant sequence against the scale indices 2..6, weighted by the
surviving leader counts of those scales. -/
theorem computeFeatures_wls (x : List ℝ) :
    (computeFeatures x).take 3 =
      [log2e * wlsSlope bandAbscissa ((bandCumulants x).map (fun c => c.1)) (bandCounts x),
       log2e * wlsSlope bandAbscissa ((bandCumulants x).map (fun c => c.2.1)) (bandCounts x),
       log2e * wlsSlope bandAbscissa ((bandCumulants x).map (fun c => c.2.2)) (bandCounts x)] := by
  obtain ⟨s0, s1, s2, s3, s4, s5, s6, s7, hs⟩ := exists_eight (mfScalesOf x) (mfScalesOf_length x)
  have htake : (computeFeatures x).take 3 = slopeFeats x := by
    rw [computeFeatures, slopeFeats]
    rfl
  rw [htake, slopeFeats, wlsSlope, wlsSlope, wlsSlope,
    mfW, mfV0, mfV1, mfV2, bandCumulants, bandCounts, mfCumulants, mfCounts,
    bandAbscissa, hs]
  simp only [List.map_cons, List.map_nil, List.drop_succ_cons, List.drop_zero,
    take_five_of_seven, List.zipWith_cons_cons, List.zipWith_nil_right,
    List.zipWith3, List.sum_cons, List.sum_nil]
  simp only [List.cons.injEq, and_true]
  refine ⟨?_, ?_, ?_⟩ <;> (simp only [div_eq_mul_inv]; ring)

/-- C9: the rate converter and the feature extractor are pure functions of
their input samples: both are embedded as mathematical functions with no
hidden state, so identical inputs give identical outputs. -/
theorem pipeline_deterministic (x1 x2 : List (List ℚ)) (fs1 fs2 : ℕ) (y1 y2 : List ℝ)
    (hx : x1 = x2) (hfs : fs1 = fs2) (hy : y1 = y2) :
    changeSamplingRate fs1 x1 = changeSamplingRate fs2 x2 ∧
    computeFeatures y1 = computeFeatures y2 := by
  subst hx hfs hy
  exact ⟨rfl, rfl⟩

/-- C9 witness: two runs on an identical concrete block and segment. -/
theorem pipeline_deterministic_witness :
    changeSamplingRate 2000 [[1, 2]] = changeSamplingRate 2000 [[1, 2]] ∧
    computeFeatures [3] = computeFeatures [3] :=
  pipeline_deterministic [[1, 2]] [[1, 2]] 2000 2000 [3] [3] rfl rfl rfl

/-! ## Montage builder (utils.channel_sort_list and utils.define_pairs)

Channel names are lists of characters. -/

/-- The apostrophe character, accepted inside lead labels by the source. -/
def apos : Char := Char.ofNat 39

/-- The digit characters of a name. -/
def digitsOf (s : List Char) : List Char := s.filter Char.isDigit

/-- Insert the padding 0 in front of the first (and only) digit: the
channel.index(digits[0]) insertion of channel_sort_list for a name with
exactly one digit. -/
def addZero : List Char → List Char
  | [] => []
  | c :: t => if c.isDigit then '0' :: c :: t else c :: addZero t

/-- Remove the padding 0 again: when the first digit of a name is 0, drop
its first occurrence. -/
def stripZero : List Char → List Char
  | [] => []
  | c :: t =>
    if c.isDigit then (if c = '0' then t else c :: t) else c :: stripZero t

/-- Lexicographic comparison of names by character code points, the order
used by Python list.sort on strings. -/
def lexLe : List Char → List Char → Bool
  | [], _ => true
  | _ :: _, [] => false
  | a :: as, b :: bs => if a = b then lexLe as bs else decide (a < b)

/-- utils.channel_sort_list: zero-pad single-digit names, sort
lexicographically, strip the padding back out. -/
def channelSortList (channels : List (List Char)) : List (List Char) :=
  (stableSort lexLe
    (channels.map (fun s => if (digitsOf s).length = 1 then addZero s else s))).map
    stripZero

/-- The lead label of a name: its alphabetic characters and apostrophes. -/
def baseOf (s : List Char) : List Char :=
  s.filter (fun c => c.isAlpha || c == apos)

/-- The numeric contact index of a name: its digits read as a number. -/
def numOf (s : List Char) : ℕ :=
  (digitsOf s).foldl (fun a c => 10 * a + (c.toNat - 48)) 0

/-- The scan of define_pairs: a pair is emitted for consecutive entries
that share a lead label and have contact indices differing by one. -/
def pairsOf : List (List Char) → List (List Char × List Char)
  | [] => []
  | [_] => []
  | a :: b :: t =>
    if baseOf a = baseOf b ∧ numOf b = numOf a + 1
    then (a, b) :: pairsOf (b :: t) else pairsOf (b :: t)

/-- The sorted name list with the names lacking any digit dropped, as
filtered by define_pairs before its pairing scan. -/
def sortedFiltered (channels : List (List Char)) : List (List Char) :=
  (channelSortList channels).filter (fun s => !(digitsOf s).isEmpty)

/-- utils.define_pairs, first output: the bipolar pairs. -/
def definePairs (channels : List (List Char)) : List (List Char × List Char) :=
  pairsOf (sortedFiltered channels)

/-- utils.define_pairs, second output: the bipolar names, first contact name
joined by an underscore with the second contact number. -/
def defineBipolarNames (channels : List (List Char)) : List (List Char) :=
  (definePairs channels).map (fun p => p.1 ++ '_' :: Nat.toDigits 10 (numOf p.2))

theorem pairsOf_eq_filter : ∀ l : List (List Char),
    pairsOf l = (l.zip l.tail).filter
      (fun p => decide (baseOf p.1 = baseOf p.2) && decide (numOf p.2 = numOf p.1 + 1))
  | [] => rfl
  | [_] => rfl
  | a :: b :: t => by
    have ih := pairsOf_eq_filter (b :: t)
    by_cases h1 : baseOf a = baseOf b <;> by_cases h2 : numOf b = numOf a + 1 <;>
      simp [pairsOf, ih, h1, h2]

/-- C5: on the channel list A1, A2, A3, B1 the pairing yields exactly
(A1, A2) and (A2, A3) and no pair containing B1; in general, the pair list
is exactly the list of consecutive entries of the sorted, digit-filtered
name list whose lead labels agree and whose contact indices differ by
exactly one. -/
theorem definePairs_spec :
    definePairs [['A', '1'], ['A', '2'], ['A', '3'], ['B', '1']] =
      [(['A', '1'], ['A', '2']), (['A', '2'], ['A', '3'])] ∧
    ∀ channels : List (List Char),
      definePairs channels =
        ((sortedFiltered channels).zip (sortedFiltered channels).tail).filter
          (fun p => decide (baseOf p.1 = baseOf p.2) && decide (numOf p.2 = numOf p.1 + 1)) := by
  constructor
  · decide
  · intro channels
    exact pairsOf_eq_filter (sortedFiltered channels)

/-! ## Orchestrator bookkeeping (sleep_features_v2)

The extraction loop increments the epoch counter ne once per epoch; after
the loop the script increments ne once more and then slices the 1500-slot
epoch axis of the feature tensor to feature[:, :, 0:ne]. -/

/-- The epoch counter after the extraction loop over Ne epochs. -/
def neAfterLoop (nEpochs : ℕ) : ℕ :=
  (List.range nEpochs).foldl (fun ne _ => ne + 1) 0

/-- The value of ne used for the slice: the loop count plus the extra
post-loop increment. -/
def neFinal (nEpochs : ℕ) : ℕ := neAfterLoop nEpochs + 1

/-- The 1500 epoch slots of the preallocated tensor, marked true when the
loop wrote a computed feature vector into them (the loop writes slot ne = ii
for ii = 0..Ne-1). -/
def writtenSlots (nEpochs : ℕ) : List Bool :=
  (List.range 1500).map (fun k => decide (k < nEpochs))

/-- The epoch axis retained by the slice feature[:, :, 0:ne]. -/
def retainedAxis (nEpochs : ℕ) : List Bool :=
  (writtenSlots nEpochs).take (neFinal nEpochs)

theorem neAfterLoop_eq (nEpochs : ℕ) : neAfterLoop nEpochs = nEpochs := by
  have h : ∀ (l : List ℕ) (a : ℕ), l.foldl (fun ne _ => ne + 1) a = a + l.length := by
    intro l
    induction l with
    | nil => intro a; simp
    | cons x t ih => intro a; simp [ih]; omega
  simp [neAfterLoop, h]

/-- C3: the epoch axis length never exceeds the configured 1500, but for
Ne = 2 epochs the retained axis has 3 slots, not 2, and its last slot never
received a computed feature vector: the post-loop increment of ne makes the
slice keep one unwritten all-zero epoch. -/
theorem retainedAxis_off_by_one :
    (∀ nEpochs : ℕ, (retainedAxis nEpochs).length ≤ 1500) ∧
    (retainedAxis 2).length = 3 ∧ (retainedAxis 2).getD 2 true = false := by
  have hax : retainedAxis 2 = [true, true, false] := by
    have h2 : neFinal 2 = 3 := by simp [neFinal, neAfterLoop_eq]
    rw [retainedAxis, h2, writtenSlots, ← List.map_take, List.take_range]
    decide
  refine ⟨?_, ?_, ?_⟩
  · intro nEpochs
    rw [retainedAxis, List.length_take, writtenSlots, List.length_map, List.length_range]
    omega
  · rw [hax]
    rfl
  · rw [hax]
    rfl

/-! ## Epoch demeaning before extraction (sleep_features_v2, line 74)

The trimmed 8192-sample block signal is a matrix [samples x channels],
embedded as its list of channel columns; the script subtracts
np.mean(signal), the grand mean over all samples of all channels jointly,
from every entry. -/

/-- np.mean over the whole matrix: total sum over total element count. -/
def grandMean (cols : List (List ℚ)) : ℚ :=
  (cols.map List.sum).sum / (((cols.map List.length).sum : ℕ) : ℚ)

/-- signal - np.tile(np.mean(signal), (8192, 1)): one and the same scalar
subtracted from every entry of every channel. -/
def demeanSignal (cols : List (List ℚ)) : List (List ℚ) :=
  cols.map (fun c => c.map (fun v => v - grandMean cols))

theorem sum_map_sub_const {α : Type} [LinearOrderedField α] (g : α) :
    ∀ c : List α, (c.map (fun v => v - g)).sum = c.sum - c.length * g
  | [] => by simp
  | v :: t => by
    simp [sum_map_sub_const g t]
    ring

theorem lmean_map_sub_const {α : Type} [LinearOrderedField α] (c : List α)
    (hne : c ≠ []) (g : α) :
    lmean (c.map (fun v => v - g)) = lmean c - g := by
  have hn : ((c.length : α)) ≠ 0 := by
    have h0 : c.length ≠ 0 := by simpa [List.length_eq_zero] using hne
    exact Nat.cast_ne_zero.mpr h0
  rw [lmean, lmean, List.length_map, sum_map_sub_const]
  field_simp

theorem getD_map_of_lt {α β : Type} (f : α → β) (d : α) (d2 : β) :
    ∀ (l : List α) (i : ℕ), i < l.length → (l.map f).getD i d2 = f (l.getD i d)
  | a :: t, 0, _ => rfl
  | a :: t, i + 1, h => getD_map_of_lt f d d2 t i (by simpa using h)

/-- C10: the demeaning step subtracts the same scalar, the grand mean over
all samples of all channels jointly, from channel i and channel j alike;
consequently, whenever two channel columns have different column means, at
least one demeaned channel column keeps a nonzero mean (a residual DC
offset) in the signal handed to compute_features. -/
theorem demeanSignal_residual_offset (cols : List (List ℚ)) (i j : ℕ)
    (hi : i < cols.length) (hj : j < cols.length)
    (hine : cols.getD i [] ≠ []) (hjne : cols.getD j [] ≠ [])
    (hdiff : lmean (cols.getD i []) ≠ lmean (cols.getD j [])) :
    (demeanSignal cols).getD i [] = (cols.getD i []).map (fun v => v - grandMean cols) ∧
    (demeanSignal cols).getD j [] = (cols.getD j []).map (fun v => v - grandMean cols) ∧
    ∃ k, k < cols.length ∧ lmean ((demeanSignal cols).getD k []) ≠ 0 := by
  have hmapi : (demeanSignal cols).getD i [] = (cols.getD i []).map (fun v => v - grandMean cols) := by
    have := getD_map_of_lt (fun c => c.map (fun v => v - grandMean cols)) [] [] cols i hi
    simpa [demeanSignal] using this
  have hmapj : (demeanSignal cols).getD j [] = (cols.getD j []).map (fun v => v - grandMean cols) := by
    have := getD_map_of_lt (fun c => c.map (fun v => v - grandMean cols)) [] [] cols j hj
    simpa [demeanSignal] using this
  refine ⟨hmapi, hmapj, ?_⟩
  by_cases hz : lmean (cols.getD i []) - grandMean cols = 0
  · refine ⟨j, hj, ?_⟩
    rw [hmapj, lmean_map_sub_const (cols.getD j []) hjne]
    intro hcontra
    apply hdiff
    have hji : lmean (cols.getD j []) = grandMean cols := by linarith [sub_eq_zero.mp hcontra]
    have hii : lmean (cols.getD i []) = grandMean cols := by linarith [sub_eq_zero.mp hz]
    rw [hji, hii]
  · refine ⟨i, hi, ?_⟩
    rw [hmapi, lmean_map_sub_const (cols.getD i []) hine]
    exact hz

/-- C10 witness: two single-sample channels with values 0 and 1; the grand
mean is one half and both demeaned columns keep a nonzero mean. -/
theorem demeanSignal_residual_offset_witness :
    ∃ k, k < ([[(0 : ℚ)], [1]] : List (List ℚ)).length ∧
      lmean ((demeanSignal [[(0 : ℚ)], [1]]).getD k []) ≠ 0 :=
  (demeanSignal_residual_offset [[(0 : ℚ)], [1]] 0 1 (by decide) (by decide)
    (by decide) (by decide)
    (by show lmean [(0 : ℚ)] ≠ lmean [(1 : ℚ)]
        norm_num [lmean, List.sum_cons, List.sum_nil])).2.2

/-! ## Feature post-processor, outlier rejection stage
(sleep_features_v2, lines 108-119)

A (channel, feature) column over the epoch axis is a list of optional
rationals, none standing for the NaN missing sentinel.  Array indexing that
can fall out of bounds (the quartile selection) is embedded with Option:
a none result is a raised IndexError. -/

/-- Round-half-even, the semantics of the Python built-in round. -/
def pyRound (q : ℚ) : ℤ :=
  let fl := ⌊q⌋
  let fr := q - fl
  if fr < 1 / 2 then fl
  else if 1 / 2 < fr then fl + 1
  else if fl % 2 = 0 then fl else fl + 1

/-- Round-half-even clamped to a natural index. -/
def pyRoundNat (q : ℚ) : ℕ := (pyRound q).toNat

/-- np.convolve(l, np.ones(10), mode same): the centred window sum over the
indices t-5 .. t+4 clamped to the list. -/
def conv10same (l : List ℚ) : List ℚ :=
  (List.range l.length).map (fun t => ((l.take (t + 5)).drop (t - 5)).sum)

/-- Ascending order on the rationals for the embedded np.sort. -/
def sortQ (l : List ℚ) : List ℚ := stableSort (fun a b => decide (a ≤ b)) l

/-- Write the fence verdicts back into the column: the i-th non-missing slot
of the column is marked missing exactly when the i-th detrended value d
falls outside the fence [lo, hi]. -/
def fenceMark (lo hi : ℚ) : List (Option ℚ) → List ℚ → List (Option ℚ)
  | [], _ => []
  | none :: t, ds => none :: fenceMark lo hi t ds
  | some v :: t, [] => some v :: fenceMark lo hi t []
  | some v :: t, d :: ds =>
    (if d < lo ∨ hi < d then none else some v) :: fenceMark lo hi t ds

/-- The outlier-rejection stage of the post-processing loop: drop the
missing values, subtract the centred 10-point moving average, sort, select
the quartile surrogates at round(0.25 n) and round(0.75 n), and mark every
value outside the 2.5-IQR Tukey fence missing.  np.convolve on an empty
array and quartile selection outside the sorted array both raise, embedded
as none. -/
def outlierStage (f : List (Option ℚ)) : Option (List (Option ℚ)) :=
  let vals := f.filterMap id
  if vals.isEmpty then none
  else
    let fnr := List.zipWith (fun v s => v - s / 10) vals (conv10same vals)
    let fsort := sortQ fnr
    let n := fsort.length
    match fsort.get? (pyRoundNat ((n : ℚ) / 4)), fsort.get? (pyRoundNat (3 * (n : ℚ) / 4)) with
    | some m0, some m1 =>
      some (fenceMark (m0 - 5 / 2 * (m1 - m0)) (m1 + 5 / 2 * (m1 - m0)) f fnr)
    | _, _ => none

/-- C4: the claim states that a column whose epochs all hold non-finite
values still completes post-processing without an error; on such a column
the code in fact raises (np.convolve over the empty non-missing series, and
the quartile selection indexes an empty sorted array), embedded here as the
stage returning none for a three-epoch all-missing column. -/
theorem outlierStage_all_missing :
    outlierStage (List.replicate 3 none) = none := by
  rfl

/-! ## Feature post-processor, normalization stage
(sleep_features_v2, lines 129-132)

The normalization divides by a standard deviation, embedded over the reals.
A column is a list of optional reals, the NightMask a list of booleans. -/

/-- The non-missing values of the night-masked epochs of a column: the
values over which np.nanmean and np.nanstd run. -/
def nightVals : List (Option ℝ) → List Bool → List ℝ
  | [], _ => []
  | _, [] => []
  | some v :: f, true :: night => v :: nightVals f night
  | some _ :: f, false :: night => nightVals f night
  | none :: f, _ :: night => nightVals f night

open scoped Classical

/-- The normalization step: if np.any(f) holds (some entry is nonzero or
missing, NaN being truthy), z-score the whole column against mean and
standard deviation of the night-masked non-missing values; otherwise leave
the column untouched. -/
noncomputable def normalizeStep (f : List (Option ℝ)) (night : List Bool) : List (Option ℝ) :=
  if ∃ o ∈ f, o ≠ some 0 then
    f.map (Option.map (fun v =>
      (v - lmean (nightVals f night)) / rstd (nightVals f night)))
  else f

theorem nightVals_map (g : ℝ → ℝ) : ∀ (f : List (Option ℝ)) (night : List Bool),
    nightVals (f.map (Option.map g)) night = (nightVals f night).map g
  | [], night => by simp [nightVals]
  | o :: f, [] => by cases o <;> simp [nightVals]
  | some v :: f, true :: night => by
    simp [nightVals, nightVals_map g f night]
  | some v :: f, false :: night => by
    simp [nightVals, nightVals_map g f night]
  | none :: f, b :: night => by
    simp [nightVals, nightVals_map g f night]

theorem sum_map_affine (a s : ℝ) : ∀ l : List ℝ,
    (l.map (fun v => (v - a) / s)).sum = (l.sum - l.length * a) / s
  | [] => by simp
  | v :: t => by
    rw [List.map_cons, List.sum_cons, sum_map_affine a s t, div_add_div_same]
    rw [List.sum_cons, List.length_cons]
    push_cast
    ring_nf

theorem sum_sq_div (a c : ℝ) : ∀ l : List ℝ,
    (l.map (fun v => (v - a) ^ 2 / c)).sum = (l.map (fun v => (v - a) ^ 2)).sum / c
  | [] => by simp
  | v :: t => by
    rw [List.map_cons, List.sum_cons, sum_sq_div a c t, div_add_div_same, List.map_cons,
      List.sum_cons]

theorem lmean_center (l : List ℝ) (hne : l ≠ []) (s : ℝ) :
    lmean (l.map (fun v => (v - lmean l) / s)) = 0 := by
  have h0 : l.length ≠ 0 := by simpa [List.length_eq_zero] using hne
  have hn : ((l.length : ℝ)) ≠ 0 := Nat.cast_ne_zero.mpr h0
  rw [lmean, List.length_map, sum_map_affine]
  rw [lmean, mul_div_cancel₀ _ hn]
  simp

theorem lmean_sq_nonneg (l : List ℝ) (a : ℝ) :
    0 ≤ lmean (l.map (fun v => (v - a) ^ 2)) := by
  apply div_nonneg
  · apply List.sum_nonneg
    intro v hv
    obtain ⟨w, _, rfl⟩ := List.mem_map.mp hv
    positivity
  · positivity

/-- C6: for a column that is not entirely zero and whose night-masked
non-missing values have nonzero standard deviation, the normalization step
leaves those night-masked non-missing values with mean exactly 0 and
standard deviation exactly 1; a column that is entirely zero is left
untouched by the step. -/
theorem normalizeStep_spec (f : List (Option ℝ)) (night : List Bool) :
    ((∃ o ∈ f, o ≠ some 0) → rstd (nightVals f night) ≠ 0 →
      lmean (nightVals (normalizeStep f night) night) = 0 ∧
      rstd (nightVals (normalizeStep f night) night) = 1) ∧
    ((∀ o ∈ f, o = some 0) → normalizeStep f night = f) := by
  constructor
  · intro hany hstd
    have hne : nightVals f night ≠ [] := by
      intro hnil
      apply hstd
      rw [hnil]
      simp [rstd, lmean]
    have hvar0 : 0 ≤ lmean ((nightVals f night).map
        (fun v => (v - lmean (nightVals f night)) ^ 2)) :=
      lmean_sq_nonneg (nightVals f night) _
    have hvarne : lmean ((nightVals f night).map
        (fun v => (v - lmean (nightVals f night)) ^ 2)) ≠ 0 := by
      intro hv0
      apply hstd
      rw [rstd, hv0, Real.sqrt_zero]
    have hsq : rstd (nightVals f night) ^ 2 =
        lmean ((nightVals f night).map (fun v => (v - lmean (nightVals f night)) ^ 2)) := by
      rw [rstd]
      exact Real.sq_sqrt hvar0
    have hmap : nightVals (normalizeStep f night) night =
        (nightVals f night).map
          (fun v => (v - lmean (nightVals f night)) / rstd (nightVals f night)) := by
      rw [normalizeStep, if_pos hany, nightVals_map]
    have hmean : lmean (nightVals (normalizeStep f night) night) = 0 := by
      rw [hmap]
      exact lmean_center (nightVals f night) hne (rstd (nightVals f night))
    refine ⟨hmean, ?_⟩
    rw [rstd, hmean, hmap]
    have hsqmap : (((nightVals f night).map
          (fun v => (v - lmean (nightVals f night)) / rstd (nightVals f night))).map
            (fun v => (v - 0) ^ 2)) =
        (nightVals f night).map
          (fun v => (v - lmean (nightVals f night)) ^ 2 / rstd (nightVals f night) ^ 2) := by
      rw [List.map_map]
      apply List.map_congr_left
      intro v hv
      simp [div_pow]
    rw [hsqmap]
    have hs2 : rstd (nightVals f night) ^ 2 ≠ 0 := by
      rw [hsq]
      exact hvarne
    have hone : lmean ((nightVals f night).map
        (fun v => (v - lmean (nightVals f night)) ^ 2 / rstd (nightVals f night) ^ 2)) =
        lmean ((nightVals f night).map (fun v => (v - lmean (nightVals f night)) ^ 2)) /
          rstd (nightVals f night) ^ 2 := by
      simp only [lmean, List.length_map, sum_sq_div]
      ring
    rw [hone, ← hsq, div_self hs2, Real.sqrt_one]
  · intro hall
    have hno : ¬ ∃ o ∈ f, o ≠ some 0 := by
      push_neg
      exact hall
    rw [normalizeStep, if_neg hno]

theorem nightVals_pair : nightVals [some (1 : ℝ), some (-1)] [true, true] = [1, -1] := by
  simp [nightVals]

theorem rstd_pair : rstd [(1 : ℝ), -1] = 1 := by
  have hm : lmean [(1 : ℝ), -1] = 0 := by norm_num [lmean]
  have hvar : lmean (([(1 : ℝ), -1]).map (fun v => (v - lmean [(1 : ℝ), -1]) ^ 2)) = 1 := by
    rw [hm]
    norm_num [lmean]
  rw [rstd, hvar, Real.sqrt_one]

/-- C6 witness: the normalization theorem applied to the concrete two-epoch
column 1, -1 with an all-night mask, and to the all-zero one-epoch column. -/
theorem normalizeStep_spec_witness :
    (lmean (nightVals (normalizeStep [some 1, some (-1)] [true, true]) [true, true]) = 0 ∧
     rstd (nightVals (normalizeStep [some 1, some (-1)] [true, true]) [true, true]) = 1) ∧
    normalizeStep [some 0] [true] = [some 0] :=
  ⟨(normalizeStep_spec [some 1, some (-1)] [true, true]).1
      ⟨some 1, by simp, by simp⟩
      (by rw [nightVals_pair, rstd_pair]; norm_num),
   (normalizeStep_spec [some 0] [true]).2 (by simp)⟩

end SleepScoring
